import Mathlib

/-!
Verification of the forward-thinking structural loop engine
(`forward_thinking_engine.py`): step/plan data model, the retry state
machine of `_execute_step`, the in-order dependency-gated pass of
`_execute_ready_steps`, the evaluation of `_evaluate_plan`, and the
bounded plan-execute-evaluate loop of `execute_plan`, together with the
history accessor `get_execution_history` and the evaluation-observer
dispatch `_notify_evaluation_handlers`.

Modelling conventions:
* A step's opaque action is embedded as `Option (Nat → Bool)`: `none` is a
  step with no action (the source treats it as an immediate success with a
  placeholder result); `some act` is an action whose invocation with the
  step's current `retry_count` returns normally iff `act retry_count`
  is `true` (a `false` models the action raising).  Since the source passes
  the same fixed `params` on every invocation, the attempt index is the
  only varying input.
* Result values, error strings, names, descriptions, params and the
  `datetime` timestamps are opaque to every property treated here and are
  omitted from the records; the float `progress` field of the evaluation
  dict is likewise omitted.
* An evaluation observer receives the plan and may mutate its step list in
  place and/or raise; it is embedded as a function from the current step
  list and evaluation snapshot to the (possibly mutated) step list paired
  with a flag that is `true` when the handler raised.  The engine's
  `try/except` swallows the flag, exactly as the source logs and drops the
  exception.
* The `while plan.iteration < plan.max_iterations` loop is run on fuel
  `max_iterations - iteration` computed at entry; the body increments
  `iteration` exactly once per pass and nothing in the loop (nor a handler,
  which only touches the step list) writes to the two counters, so the fuel
  is exactly the number of remaining admissible passes.
-/

namespace ForwardThinking

/-- Status of a plan step (`StepStatus` in the source). -/
inductive StepStatus where
  | pending
  | inProgress
  | completed
  | failed
  | skipped
deriving DecidableEq, Repr

/-- Status of an execution plan (`PlanStatus` in the source). -/
inductive PlanStatus where
  | draft
  | active
  | completed
  | failed
  | replanning
deriving DecidableEq, Repr

/-- A single step of a plan (`PlanStep` in the source), restricted to the
fields the verified properties observe.  Defaults are the source's dataclass
defaults (`status=PENDING`, `retry_count=0`, `max_retries=2`, no
dependencies, no action). -/
structure PlanStep where
  step_id : String
  depends_on : List String := []
  action : Option (Nat → Bool) := none
  status : StepStatus := .pending
  retry_count : Nat := 0
  max_retries : Nat := 2

/-- An execution plan (`ExecutionPlan` in the source): ordered step
sequence, lifecycle status and the iteration counters. -/
structure ExecutionPlan where
  plan_id : String
  goal : String := ""
  steps : List PlanStep := []
  status : PlanStatus := .draft
  iteration : Nat := 0
  max_iterations : Nat := 5

/-- The per-pass evaluation snapshot built by `_evaluate_plan` (the float
`progress` entry is omitted). -/
structure Evaluation where
  total_steps : Nat
  completed : Nat
  failed : Nat
  pending : Nat
  all_completed : Bool
  has_failures : Bool
  can_continue : Bool
  needs_replanning : Bool
deriving DecidableEq, Repr

/-- One record of `self.execution_history` (timestamp omitted). -/
structure HistoryEntry where
  plan_id : String
  iteration : Nat
  steps_executed : Nat
  evaluation : Evaluation
deriving DecidableEq, Repr

/-- An evaluation observer: from the current step list and the evaluation
snapshot to the (possibly mutated) step list, paired with `true` when the
handler raised. -/
def Handler : Type := List PlanStep → Evaluation → List PlanStep × Bool

/-- The step map `{s.step_id: s for s in plan.steps}` built by
`_dependencies_satisfied`: a Python dict comprehension lets the later entry
win on duplicate ids, so lookup returns the last step carrying the id. -/
def lookupStep (steps : List PlanStep) (sid : String) : Option PlanStep :=
  steps.reverse.find? (fun t => t.step_id == sid)

/-- `_dependencies_satisfied`: every declared dependency id must resolve in
the current step map to a step whose status is COMPLETED (an early `True`
for an empty dependency list coincides with `List.all`). -/
def dependenciesSatisfied (steps : List PlanStep) (s : PlanStep) : Bool :=
  s.depends_on.all fun dep =>
    match lookupStep steps dep with
    | none => false
    | some t => t.status == StepStatus.completed

/-- `_execute_step`: mark IN_PROGRESS, invoke the action (absent action =
immediate success with a placeholder result); on success mark COMPLETED; on
a raise increment `retry_count` and either reset to PENDING
(`retry_count <= max_retries`) or mark FAILED. -/
def executeStep (s : PlanStep) : PlanStep :=
  let s1 : PlanStep := { s with status := .inProgress }
  match s1.action with
  | none => { s1 with status := .completed }
  | some act =>
    if act s1.retry_count then
      { s1 with status := .completed }
    else if s1.retry_count + 1 ≤ s1.max_retries then
      { s1 with retry_count := s1.retry_count + 1, status := .pending }
    else
      { s1 with retry_count := s1.retry_count + 1, status := .failed }

/-- The scan of `_execute_ready_steps`: `done` is the already-visited
prefix of the plan's (mutated-in-place) step list, `todo` the rest, `ex`
the running count of executed steps.  A PENDING step whose dependencies are
satisfied against the full current list `done ++ todo` is executed on the
spot; the function returns the processed form of `todo` and the final
count. -/
def execPassAux (done : List PlanStep) : List PlanStep → Nat → List PlanStep × Nat
  | [], ex => ([], ex)
  | s :: rest, ex =>
    if s.status == .pending && dependenciesSatisfied (done ++ s :: rest) s then
      let r := execPassAux (done ++ [executeStep s]) rest (ex + 1)
      (executeStep s :: r.1, r.2)
    else
      let r := execPassAux (done ++ [s]) rest ex
      (s :: r.1, r.2)

/-- `_execute_ready_steps`: one in-order pass over the whole step list. -/
def executeReadySteps (steps : List PlanStep) : List PlanStep × Nat :=
  execPassAux [] steps 0

/-- Count of steps with a given status (`sum(1 for s in ... if ...)`). -/
def countStatus (steps : List PlanStep) (st : StepStatus) : Nat :=
  (steps.filter (fun s => s.status == st)).length

/-- `_evaluate_plan`: aggregate counts and the derived booleans. -/
def evaluatePlan (steps : List PlanStep) : Evaluation :=
  let total := steps.length
  let completed := countStatus steps .completed
  let failed := countStatus steps .failed
  let pending := countStatus steps .pending
  { total_steps := total
    completed := completed
    failed := failed
    pending := pending
    all_completed := completed == total && decide (0 < total)
    has_failures := decide (0 < failed)
    can_continue := decide (0 < pending)
    needs_replanning := decide (0 < failed) && decide (0 < pending) }

/-- `_notify_evaluation_handlers`: invoke every handler in registration
order on the current step list; a raise is caught and logged, so the next
handler still runs and the step list a raising handler left behind is kept.
The second component observes how many handlers were invoked. -/
def notifyEvaluationHandlers (handlers : List Handler) (steps : List PlanStep)
    (ev : Evaluation) : List PlanStep × Nat :=
  handlers.foldl (fun acc h => ((h acc.1 ev).1, acc.2 + 1)) (steps, 0)

/-- The `while` loop of `execute_plan`, on fuel (see the module comment).
Per pass: increment `iteration`, run a ready-step pass, evaluate, append a
history entry, then branch: `all_completed` → COMPLETED stop;
`has_failures and not can_continue` → FAILED stop; `needs_replanning` →
REPLANNING, notify observers, back to ACTIVE and continue; else continue.
The third result component logs every evaluation snapshot passed to the
observers (an observation, not engine state). -/
def executeLoop (handlers : List Handler) :
    Nat → ExecutionPlan → List HistoryEntry → List Evaluation →
    ExecutionPlan × List HistoryEntry × List Evaluation
  | 0, plan, hist, evLog => (plan, hist, evLog)
  | fuel + 1, plan, hist, evLog =>
    let plan1 : ExecutionPlan := { plan with iteration := plan.iteration + 1 }
    let pass := executeReadySteps plan1.steps
    let plan2 : ExecutionPlan := { plan1 with steps := pass.1 }
    let ev := evaluatePlan plan2.steps
    let hist1 := hist ++ [{ plan_id := plan2.plan_id, iteration := plan2.iteration,
                            steps_executed := pass.2, evaluation := ev }]
    if ev.all_completed then
      ({ plan2 with status := .completed }, hist1, evLog)
    else if ev.has_failures && !ev.can_continue then
      ({ plan2 with status := .failed }, hist1, evLog)
    else if ev.needs_replanning then
      let plan3 : ExecutionPlan := { plan2 with status := .replanning }
      let notified := notifyEvaluationHandlers handlers plan3.steps ev
      executeLoop handlers fuel { plan3 with steps := notified.1, status := .active }
        hist1 (evLog ++ [ev])
    else
      executeLoop handlers fuel plan2 hist1 evLog

/-- `execute_plan` on an already-looked-up plan: set ACTIVE, run the loop,
and if the loop left the plan ACTIVE (budget exhausted) force FAILED.
Returns the final plan, the full execution history, and the log of
evaluations handed to observers. -/
def executePlan (handlers : List Handler) (plan : ExecutionPlan)
    (hist : List HistoryEntry) :
    ExecutionPlan × List HistoryEntry × List Evaluation :=
  let p0 : ExecutionPlan := { plan with status := PlanStatus.active }
  let r := executeLoop handlers (p0.max_iterations - p0.iteration) p0 hist []
  if r.1.status == PlanStatus.active then
    ({ r.1 with status := .failed }, r.2)
  else
    r

/-- `get_execution_history`: the source tests `if plan_id:`, so `None` and
the empty string both return the whole history (the source copies the list;
a copy is the identity here), otherwise the entries for the id, in append
order. -/
def get_execution_history (hist : List HistoryEntry) (pid : Option String) :
    List HistoryEntry :=
  match pid with
  | none => hist
  | some p => if p == "" then hist else hist.filter (fun e => e.plan_id == p)

/-- Well-formedness of a step's retry bookkeeping, as established by the
dataclass defaults (`retry_count = 0`) and preserved by `_execute_step`:
the count never exceeds `max_retries + 1`; a PENDING step still has a retry
left; a FAILED step has exhausted its retries. -/
def stepWF (s : PlanStep) : Prop :=
  s.retry_count ≤ s.max_retries + 1 ∧
  (s.status = .pending → s.retry_count ≤ s.max_retries) ∧
  (s.status = .failed → s.max_retries < s.retry_count)

instance (s : PlanStep) : Decidable (stepWF s) := by
  unfold stepWF; exact inferInstance

/-- A dependency chain declared in the reverse of its dependency order:
the step list for ids `[a₁, …, aₙ]` has step `aᵢ` depend on `aᵢ₊₁`, so every
step's sole dependency sits later in the insertion sequence (the last step
has none).  All steps are fresh (PENDING, no action). -/
def revChain : List String → List PlanStep
  | [] => []
  | [a] => [{ step_id := a }]
  | a :: b :: rest => { step_id := a, depends_on := [b] } :: revChain (b :: rest)

/-- Mark every step at an index at least `m` COMPLETED, keeping the earlier
steps as they are: the state of a reverse-declared chain after its last
`length - m` links have drained. -/
def completeFrom : Nat → List PlanStep → List PlanStep
  | _, [] => []
  | 0, s :: rest => { s with status := .completed } :: completeFrom 0 rest
  | m + 1, s :: rest => s :: completeFrom m rest

/-- A step whose action raises on every invocation, with retry ceiling 1. -/
def alwaysFailStep : PlanStep :=
  { step_id := "s1", action := some (fun _ => false), max_retries := 1 }

/-- A one-step plan around `alwaysFailStep` (default `max_iterations = 5`). -/
def alwaysFailPlan : ExecutionPlan := { plan_id := "p1", steps := [alwaysFailStep] }

/-- The final state `execute_plan` leaves `alwaysFailStep` in. -/
def alwaysFailStepFinal : PlanStep :=
  { alwaysFailStep with status := .failed, retry_count := 2 }

/-- A plan with an empty step sequence. -/
def emptyPlan : ExecutionPlan := { plan_id := "p0" }

/-- A step that fails permanently on its first attempt (no retries). -/
def obsStepA : PlanStep :=
  { step_id := "A", action := some (fun _ => false), max_retries := 0 }

/-- A step gated on a dependency id that names no step of the plan. -/
def obsStepB : PlanStep := { step_id := "B", depends_on := ["missing"] }

/-- A plan that triggers the re-planning branch on every pass: one step
fails permanently at once, the other stays PENDING behind an unresolvable
dependency. -/
def obsPlan : ExecutionPlan := { plan_id := "p7", steps := [obsStepA, obsStepB] }

/-- An evaluation observer that mutates the plan's step list (marking the
failed step COMPLETED and unblocking the pending one) and then raises: the
raised flag is `true` on every invocation. -/
def raiseMutHandler : Handler :=
  fun _ _ => ([{ obsStepA with status := .completed },
               { obsStepB with depends_on := [] }], true)

/-- The evaluation snapshot `obsPlan` produces on every pass. -/
def obsEval : Evaluation :=
  { total_steps := 2, completed := 0, failed := 1, pending := 1,
    all_completed := false, has_failures := true, can_continue := true,
    needs_replanning := true }

/-- A two-step chain declared in dependency order: `B` depends on `A`,
declared after it. -/
def twoChainPlan : ExecutionPlan :=
  { plan_id := "pc",
    steps := [{ step_id := "A" }, { step_id := "B", depends_on := ["A"] }] }

/-- A plan whose previous run already consumed the whole iteration budget
and ended COMPLETED. -/
def spentPlan : ExecutionPlan :=
  { plan_id := "px", steps := [{ step_id := "x1", status := .completed }],
    status := .completed, iteration := 5, max_iterations := 5 }

/-- A step already COMPLETED, usable as a satisfied dependency. -/
def completedA : PlanStep := { step_id := "A", status := .completed }

/-- A step whose sole dependency is `completedA`. -/
def zStep : PlanStep := { step_id := "Z", depends_on := ["A"] }

/-- An observer that raises on every invocation and leaves the plan's
steps untouched. -/
def pureRaiseHandler : Handler := fun st _ => (st, true)

/-! Helper lemmas: the step map, dependency satisfaction, single-step
execution, and the evaluation counts. -/

theorem find?_step_of_nodup (l : List PlanStep) (t : PlanStep)
    (hnd : (l.map (fun u => u.step_id)).Nodup) (ht : t ∈ l) :
    l.find? (fun u => u.step_id == t.step_id) = some t := by
  induction l with
  | nil => cases ht
  | cons a rest ih =>
    rw [List.map_cons, List.nodup_cons] at hnd
    by_cases hat : a.step_id = t.step_id
    · rcases List.mem_cons.mp ht with h | h
      · subst h
        exact List.find?_cons_of_pos _ (by simp)
      · exact absurd (hat ▸ List.mem_map_of_mem (fun u => u.step_id) h) hnd.1
    · have hne : ¬ ((fun u => u.step_id == t.step_id) a = true) := by simpa using hat
      rw [List.find?_cons_of_neg rest hne]
      rcases List.mem_cons.mp ht with h | h
      · subst h; exact absurd rfl hat
      · exact ih hnd.2 h

theorem lookupStep_of_nodup (l : List PlanStep) (t : PlanStep)
    (hnd : (l.map (fun u => u.step_id)).Nodup) (ht : t ∈ l) :
    lookupStep l t.step_id = some t := by
  unfold lookupStep
  apply find?_step_of_nodup
  · rw [List.map_reverse]
    exact List.nodup_reverse.mpr hnd
  · exact List.mem_reverse.mpr ht

theorem lookupStep_eq_none (l : List PlanStep) (d : String)
    (h : d ∉ l.map (fun u => u.step_id)) : lookupStep l d = none := by
  unfold lookupStep
  rw [List.find?_eq_none]
  intro x hx hpx
  apply h
  have hxd : x.step_id = d := by simpa using hpx
  rw [← hxd]
  exact List.mem_map_of_mem _ (List.mem_reverse.mp hx)

theorem lookupStep_append_right (l₁ l₂ : List PlanStep) (d : String)
    (h : d ∈ l₂.map (fun u => u.step_id)) :
    lookupStep (l₁ ++ l₂) d = lookupStep l₂ d := by
  unfold lookupStep
  rw [List.reverse_append, List.find?_append]
  rcases List.mem_map.mp h with ⟨t, ht, hid⟩
  have hsome : (l₂.reverse.find? (fun u => u.step_id == d)).isSome := by
    rw [List.find?_isSome]
    exact ⟨t, List.mem_reverse.mpr ht, by simp [hid]⟩
  obtain ⟨v, hv⟩ := Option.isSome_iff_exists.mp hsome
  rw [hv]
  rfl

theorem dependenciesSatisfied_spec (steps : List PlanStep) (s : PlanStep)
    (h : dependenciesSatisfied steps s = true) :
    ∀ d ∈ s.depends_on,
      ∃ t, lookupStep steps d = some t ∧ t.status = .completed := by
  intro d hd
  unfold dependenciesSatisfied at h
  rw [List.all_eq_true] at h
  have hx := h d hd
  cases hl : lookupStep steps d with
  | none => rw [hl] at hx; simp at hx
  | some t =>
    rw [hl] at hx
    exact ⟨t, rfl, by simpa using hx⟩

theorem dependenciesSatisfied_missing (steps : List PlanStep) (s : PlanStep)
    (d : String) (hd : d ∈ s.depends_on)
    (h : d ∉ steps.map (fun u => u.step_id)) :
    dependenciesSatisfied steps s = false := by
  unfold dependenciesSatisfied
  rw [List.all_eq_false]
  refine ⟨d, hd, ?_⟩
  rw [lookupStep_eq_none steps d h]
  simp

theorem executeStep_cases (s : PlanStep) :
    executeStep s = { s with status := .completed } ∨
    (executeStep s = { s with status := .pending, retry_count := s.retry_count + 1 } ∧
      s.retry_count + 1 ≤ s.max_retries) ∨
    (executeStep s = { s with status := .failed, retry_count := s.retry_count + 1 } ∧
      s.max_retries < s.retry_count + 1) := by
  unfold executeStep
  cases s.action with
  | none => left; rfl
  | some act =>
    by_cases hact : act s.retry_count
    · left; simp [hact]
    · by_cases hrc : s.retry_count + 1 ≤ s.max_retries
      · right; left
        refine ⟨?_, hrc⟩
        simp [hact, hrc]
      · right; right
        refine ⟨?_, by omega⟩
        simp [hact, hrc]

theorem executeStep_step_id (s : PlanStep) :
    (executeStep s).step_id = s.step_id := by
  rcases executeStep_cases s with h | ⟨h, _⟩ | ⟨h, _⟩ <;> rw [h]

theorem executeStep_max_retries (s : PlanStep) :
    (executeStep s).max_retries = s.max_retries := by
  rcases executeStep_cases s with h | ⟨h, _⟩ | ⟨h, _⟩ <;> rw [h]

theorem executeStep_ne_pending_or_retry (s : PlanStep) :
    (executeStep s).status ≠ .pending ∨
      (executeStep s).retry_count = s.retry_count + 1 := by
  rcases executeStep_cases s with h | ⟨h, _⟩ | ⟨h, _⟩ <;> rw [h] <;> simp

theorem executeStep_wf (s : PlanStep) (hp : s.status = .pending)
    (hwf : stepWF s) : stepWF (executeStep s) := by
  have hrc : s.retry_count ≤ s.max_retries := hwf.2.1 hp
  rcases executeStep_cases s with h | ⟨h, hb⟩ | ⟨h, hb⟩ <;> rw [h] <;>
    refine ⟨?_, ?_, ?_⟩ <;> simp <;> omega

theorem countStatus_eq_length_iff (steps : List PlanStep) (st : StepStatus) :
    countStatus steps st = steps.length ↔ ∀ s ∈ steps, s.status = st := by
  unfold countStatus
  rw [List.filter_length_eq_length]
  simp

theorem countStatus_pos_iff (steps : List PlanStep) (st : StepStatus) :
    0 < countStatus steps st ↔ ∃ s ∈ steps, s.status = st := by
  unfold countStatus
  rw [← List.countP_eq_length_filter, List.countP_pos_iff]
  simp

/-! Characterization of the ready-step pass. -/

theorem execPassAux_length (todo : List PlanStep) :
    ∀ done ex, (execPassAux done todo ex).1.length = todo.length := by
  induction todo with
  | nil => intro done ex; rfl
  | cons s rest ih =>
    intro done ex
    unfold execPassAux
    by_cases h : (s.status == .pending && dependenciesSatisfied (done ++ s :: rest) s) = true
    · rw [if_pos h]; simp [ih]
    · rw [if_neg h]; simp [ih]

theorem execPassAux_ids (todo : List PlanStep) :
    ∀ done ex, (execPassAux done todo ex).1.map (fun u => u.step_id)
      = todo.map (fun u => u.step_id) := by
  induction todo with
  | nil => intro done ex; rfl
  | cons s rest ih =>
    intro done ex
    unfold execPassAux
    by_cases h : (s.status == .pending && dependenciesSatisfied (done ++ s :: rest) s) = true
    · rw [if_pos h]; simp [ih, executeStep_step_id]
    · rw [if_neg h]; simp [ih]

theorem execPassAux_spec (todo : List PlanStep) :
    ∀ done ex j s, todo[j]? = some s →
      ((execPassAux done todo ex).1)[j]? = some s ∨
      (s.status = .pending ∧
        dependenciesSatisfied
          (done ++ (execPassAux done todo ex).1.take j ++ todo.drop j) s = true ∧
        ((execPassAux done todo ex).1)[j]? = some (executeStep s)) := by
  induction todo with
  | nil => intro done ex j s h; simp at h
  | cons t rest ih =>
    intro done ex j s h
    unfold execPassAux
    by_cases hg : (t.status == .pending && dependenciesSatisfied (done ++ t :: rest) t) = true
    · rw [if_pos hg]
      cases j with
      | zero =>
        right
        have hts : t = s := by simpa using h
        subst hts
        simp only [Bool.and_eq_true, beq_iff_eq] at hg
        refine ⟨hg.1, by simpa using hg.2, by simp⟩
      | succ j =>
        have h2 : rest[j]? = some s := by simpa using h
        rcases ih (done ++ [executeStep t]) (ex + 1) j s h2 with h3 | ⟨hp, hd, h3⟩
        · left; simpa using h3
        · right
          refine ⟨hp, ?_, by simpa using h3⟩
          simpa [List.append_assoc] using hd
    · rw [if_neg hg]
      cases j with
      | zero =>
        left
        have hts : t = s := by simpa using h
        subst hts
        simp
      | succ j =>
        have h2 : rest[j]? = some s := by simpa using h
        rcases ih (done ++ [t]) ex j s h2 with h3 | ⟨hp, hd, h3⟩
        · left; simpa using h3
        · right
          refine ⟨hp, ?_, by simpa using h3⟩
          simpa [List.append_assoc] using hd

theorem execPassAux_skip (todo : List PlanStep) :
    ∀ done ex, (∀ s ∈ todo, s.status ≠ .pending) →
      execPassAux done todo ex = (todo, ex) := by
  induction todo with
  | nil => intro done ex _; rfl
  | cons t rest ih =>
    intro done ex h
    unfold execPassAux
    have h1 : (t.status == .pending) = false := by
      simpa using h t (by simp)
    have hg : ¬ (t.status == .pending && dependenciesSatisfied (done ++ t :: rest) t) = true := by
      simp [h1]
    rw [if_neg hg]
    simp [ih (done ++ [t]) ex (fun s hs => h s (List.mem_cons_of_mem _ hs))]

theorem executeReadySteps_length (steps : List PlanStep) :
    (executeReadySteps steps).1.length = steps.length :=
  execPassAux_length steps [] 0

theorem executeReadySteps_ids (steps : List PlanStep) :
    (executeReadySteps steps).1.map (fun u => u.step_id)
      = steps.map (fun u => u.step_id) :=
  execPassAux_ids steps [] 0

theorem executeReadySteps_spec (steps : List PlanStep) (j : Nat) (s : PlanStep)
    (h : steps[j]? = some s) :
    ((executeReadySteps steps).1)[j]? = some s ∨
    (s.status = .pending ∧
      dependenciesSatisfied
        ((executeReadySteps steps).1.take j ++ steps.drop j) s = true ∧
      ((executeReadySteps steps).1)[j]? = some (executeStep s)) := by
  have := execPassAux_spec steps [] 0 j s h
  simpa using this

theorem pass_frozen (steps : List PlanStep) (j : Nat) (s : PlanStep)
    (h : steps[j]? = some s) (hs : s.status ≠ .pending) :
    ((executeReadySteps steps).1)[j]? = some s := by
  rcases executeReadySteps_spec steps j s h with h1 | ⟨hp, _, _⟩
  · exact h1
  · exact absurd hp hs

theorem pass_missing_dep (steps : List PlanStep) (j : Nat) (s : PlanStep)
    (d : String) (h : steps[j]? = some s) (hd : d ∈ s.depends_on)
    (hmiss : d ∉ steps.map (fun u => u.step_id)) :
    ((executeReadySteps steps).1)[j]? = some s := by
  rcases executeReadySteps_spec steps j s h with h1 | ⟨_, hsat, _⟩
  · exact h1
  · exfalso
    have hids : ((executeReadySteps steps).1.take j ++ steps.drop j).map
        (fun u => u.step_id) = steps.map (fun u => u.step_id) := by
      rw [List.map_append, List.map_take, executeReadySteps_ids, List.map_drop,
        List.take_append_drop]
    have := dependenciesSatisfied_missing
      ((executeReadySteps steps).1.take j ++ steps.drop j) s d hd (by rw [hids]; exact hmiss)
    rw [this] at hsat
    cases hsat

theorem pass_wf (steps : List PlanStep) (h : ∀ s ∈ steps, stepWF s) :
    ∀ x ∈ (executeReadySteps steps).1, stepWF x := by
  intro x hx
  rcases List.mem_iff_getElem?.mp hx with ⟨j, hj⟩
  have hjR : j < (executeReadySteps steps).1.length := by
    rcases List.getElem?_eq_some_iff.mp hj with ⟨hlt, _⟩
    exact hlt
  have hjlen : j < steps.length := by
    rw [← executeReadySteps_length steps]; exact hjR
  cases hs0 : steps[j]? with
  | none =>
    rw [List.getElem?_eq_none_iff] at hs0
    omega
  | some s0 =>
    have hmem : s0 ∈ steps := List.getElem?_mem hs0
    rcases executeReadySteps_spec steps j s0 hs0 with h1 | ⟨hp, _, h1⟩
    · rw [hj] at h1
      have hx2 : x = s0 := by injection h1
      rw [hx2]; exact h s0 hmem
    · rw [hj] at h1
      have hx2 : x = executeStep s0 := by injection h1
      rw [hx2]; exact executeStep_wf s0 hp (h s0 hmem)

/-! Evaluation snapshot projections and their meaning. -/

theorem evaluatePlan_all_completed (steps : List PlanStep) :
    (evaluatePlan steps).all_completed
      = (countStatus steps .completed == steps.length && decide (0 < steps.length)) := rfl

theorem evaluatePlan_has_failures (steps : List PlanStep) :
    (evaluatePlan steps).has_failures = decide (0 < countStatus steps .failed) := rfl

theorem evaluatePlan_can_continue (steps : List PlanStep) :
    (evaluatePlan steps).can_continue = decide (0 < countStatus steps .pending) := rfl

theorem evaluatePlan_needs (steps : List PlanStep) :
    (evaluatePlan steps).needs_replanning
      = (decide (0 < countStatus steps .failed) && decide (0 < countStatus steps .pending)) := rfl

theorem evaluatePlan_failed_eq (steps : List PlanStep) :
    (evaluatePlan steps).failed = countStatus steps .failed := rfl

theorem evaluatePlan_completed_eq (steps : List PlanStep) :
    (evaluatePlan steps).completed = countStatus steps .completed := rfl

theorem evaluatePlan_pending_eq (steps : List PlanStep) :
    (evaluatePlan steps).pending = countStatus steps .pending := rfl

theorem evaluatePlan_all_completed_iff (steps : List PlanStep) :
    (evaluatePlan steps).all_completed = true ↔
      (∀ s ∈ steps, s.status = .completed) ∧ steps ≠ [] := by
  rw [evaluatePlan_all_completed]
  simp only [Bool.and_eq_true, beq_iff_eq, decide_eq_true_eq]
  rw [countStatus_eq_length_iff, List.length_pos]

theorem evaluatePlan_has_failures_iff (steps : List PlanStep) :
    (evaluatePlan steps).has_failures = true ↔ ∃ s ∈ steps, s.status = .failed := by
  rw [evaluatePlan_has_failures]
  simp only [decide_eq_true_eq]
  exact countStatus_pos_iff steps .failed

theorem evaluatePlan_can_continue_iff (steps : List PlanStep) :
    (evaluatePlan steps).can_continue = true ↔ ∃ s ∈ steps, s.status = .pending := by
  rw [evaluatePlan_can_continue]
  simp only [decide_eq_true_eq]
  exact countStatus_pos_iff steps .pending

theorem evaluatePlan_needs_imp (steps : List PlanStep)
    (h : (evaluatePlan steps).needs_replanning = true) :
    (evaluatePlan steps).has_failures = true ∧ 0 < (evaluatePlan steps).failed := by
  rw [evaluatePlan_needs] at h
  simp only [Bool.and_eq_true, decide_eq_true_eq] at h
  rw [evaluatePlan_has_failures, evaluatePlan_failed_eq]
  simp [h.1]

/-! Observer dispatch. -/

theorem notify_foldl_fst (ev : Evaluation) :
    ∀ (handlers : List Handler),
      (∀ hd ∈ handlers, ∀ st e, hd st e = (st, true)) →
      ∀ (p : List PlanStep × Nat),
        (handlers.foldl (fun acc h => ((h acc.1 ev).1, acc.2 + 1)) p).1 = p.1 := by
  intro handlers
  induction handlers with
  | nil => intro _ p; rfl
  | cons hd rest ih =>
    intro hp p
    rw [List.foldl_cons]
    rw [ih (fun x hx => hp x (List.mem_cons_of_mem _ hx))]
    rw [hp hd (by simp) p.1 ev]

theorem notify_foldl_count (ev : Evaluation) :
    ∀ (handlers : List Handler) (p : List PlanStep × Nat),
      (handlers.foldl (fun acc h => ((h acc.1 ev).1, acc.2 + 1)) p).2
        = p.2 + handlers.length := by
  intro handlers
  induction handlers with
  | nil => intro p; simp
  | cons hd rest ih =>
    intro p
    rw [List.foldl_cons, ih]
    simp
    omega

theorem notify_pure (handlers : List Handler) (steps : List PlanStep)
    (ev : Evaluation) (hp : ∀ hd ∈ handlers, ∀ st e, hd st e = (st, true)) :
    (notifyEvaluationHandlers handlers steps ev).1 = steps :=
  notify_foldl_fst ev handlers hp (steps, 0)

theorem notify_count (handlers : List Handler) (steps : List PlanStep)
    (ev : Evaluation) :
    (notifyEvaluationHandlers handlers steps ev).2 = handlers.length := by
  have := notify_foldl_count ev handlers (steps, 0)
  simpa using this

/-! Loop-level lemmas. -/

theorem executeLoop_invariants (handlers : List Handler) :
    ∀ (fuel : Nat) (plan : ExecutionPlan) (hist : List HistoryEntry)
      (log : List Evaluation),
      (executeLoop handlers fuel plan hist log).1.max_iterations = plan.max_iterations ∧
      (executeLoop handlers fuel plan hist log).1.plan_id = plan.plan_id ∧
      plan.iteration ≤ (executeLoop handlers fuel plan hist log).1.iteration ∧
      (executeLoop handlers fuel plan hist log).1.iteration ≤ plan.iteration + fuel ∧
      (plan.status = .active →
        ((executeLoop handlers fuel plan hist log).1.status = .completed ∨
         (executeLoop handlers fuel plan hist log).1.status = .failed ∨
         (executeLoop handlers fuel plan hist log).1.status = .active)) := by
  intro fuel
  induction fuel with
  | zero =>
    intro plan hist log
    exact ⟨rfl, rfl, Nat.le_refl _, Nat.le_add_right _ _, fun h => Or.inr (Or.inr h)⟩
  | succ fuel ih =>
    intro plan hist log
    rw [executeLoop]
    dsimp only
    split
    · exact ⟨rfl, rfl, by dsimp; omega, by dsimp; omega, fun _ => Or.inl rfl⟩
    · split
      · exact ⟨rfl, rfl, by dsimp; omega, by dsimp; omega, fun _ => Or.inr (Or.inl rfl)⟩
      · split
        · rcases ih { plan with
              iteration := plan.iteration + 1,
              steps := (notifyEvaluationHandlers handlers
                (executeReadySteps plan.steps).1
                (evaluatePlan (executeReadySteps plan.steps).1)).1,
              status := .active }
            (hist ++ [{ plan_id := plan.plan_id, iteration := plan.iteration + 1,
                        steps_executed := (executeReadySteps plan.steps).2,
                        evaluation := evaluatePlan (executeReadySteps plan.steps).1 }])
            (log ++ [evaluatePlan (executeReadySteps plan.steps).1])
            with ⟨h1, h2, h3, h4, h5⟩
          exact ⟨h1, h2, by dsimp at h3 ⊢; omega, by dsimp at h4 ⊢; omega,
            fun _ => h5 rfl⟩
        · rcases ih { plan with
              iteration := plan.iteration + 1,
              steps := (executeReadySteps plan.steps).1 }
            (hist ++ [{ plan_id := plan.plan_id, iteration := plan.iteration + 1,
                        steps_executed := (executeReadySteps plan.steps).2,
                        evaluation := evaluatePlan (executeReadySteps plan.steps).1 }])
            log
            with ⟨h1, h2, h3, h4, h5⟩
          exact ⟨h1, h2, by dsimp at h3 ⊢; omega, by dsimp at h4 ⊢; omega,
            fun hst => h5 hst⟩

theorem executeLoop_nil_steps (fuel : Nat) :
    ∀ (plan : ExecutionPlan) (hist : List HistoryEntry) (log : List Evaluation),
      (executeLoop [] fuel plan hist log).1.steps.length = plan.steps.length ∧
      (executeLoop [] fuel plan hist log).1.steps.map (fun u => u.step_id)
        = plan.steps.map (fun u => u.step_id) ∧
      ((∀ s ∈ plan.steps, stepWF s) →
        ∀ s ∈ (executeLoop [] fuel plan hist log).1.steps, stepWF s) := by
  induction fuel with
  | zero => intro plan hist log; exact ⟨rfl, rfl, fun h => h⟩
  | succ fuel ih =>
    intro plan hist log
    rw [executeLoop]
    dsimp only
    split
    · exact ⟨executeReadySteps_length _, executeReadySteps_ids _,
        fun h => pass_wf _ h⟩
    · split
      · exact ⟨executeReadySteps_length _, executeReadySteps_ids _,
          fun h => pass_wf _ h⟩
      · split
        · rcases ih { plan with
              iteration := plan.iteration + 1,
              steps := (notifyEvaluationHandlers []
                (executeReadySteps plan.steps).1
                (evaluatePlan (executeReadySteps plan.steps).1)).1,
              status := .active }
            (hist ++ [{ plan_id := plan.plan_id, iteration := plan.iteration + 1,
                        steps_executed := (executeReadySteps plan.steps).2,
                        evaluation := evaluatePlan (executeReadySteps plan.steps).1 }])
            (log ++ [evaluatePlan (executeReadySteps plan.steps).1])
            with ⟨h1, h2, h3⟩
          refine ⟨?_, ?_, ?_⟩
          · rw [h1]; exact executeReadySteps_length _
          · rw [h2]; exact executeReadySteps_ids _
          · intro hwf
            exact h3 (pass_wf _ hwf)
        · rcases ih { plan with
              iteration := plan.iteration + 1,
              steps := (executeReadySteps plan.steps).1 }
            (hist ++ [{ plan_id := plan.plan_id, iteration := plan.iteration + 1,
                        steps_executed := (executeReadySteps plan.steps).2,
                        evaluation := evaluatePlan (executeReadySteps plan.steps).1 }])
            log
            with ⟨h1, h2, h3⟩
          refine ⟨?_, ?_, ?_⟩
          · rw [h1]; exact executeReadySteps_length _
          · rw [h2]; exact executeReadySteps_ids _
          · intro hwf
            exact h3 (pass_wf _ hwf)

theorem executeLoop_nil_frozen (fuel : Nat) :
    ∀ (plan : ExecutionPlan) (hist : List HistoryEntry) (log : List Evaluation)
      (j : Nat) (s : PlanStep), plan.steps[j]? = some s → s.status ≠ .pending →
      (executeLoop [] fuel plan hist log).1.steps[j]? = some s := by
  induction fuel with
  | zero => intro plan hist log j s hj _; exact hj
  | succ fuel ih =>
    intro plan hist log j s hj hs
    rw [executeLoop]
    dsimp only
    split
    · exact pass_frozen _ j s hj hs
    · split
      · exact pass_frozen _ j s hj hs
      · split
        · exact ih _ _ _ j s (pass_frozen _ j s hj hs) hs
        · exact ih _ _ _ j s (pass_frozen _ j s hj hs) hs

theorem executeLoop_nil_missing (fuel : Nat) :
    ∀ (plan : ExecutionPlan) (hist : List HistoryEntry) (log : List Evaluation)
      (j : Nat) (s : PlanStep) (d : String),
      plan.steps[j]? = some s → d ∈ s.depends_on →
      d ∉ plan.steps.map (fun u => u.step_id) →
      (executeLoop [] fuel plan hist log).1.steps[j]? = some s := by
  induction fuel with
  | zero => intro plan hist log j s d hj _ _; exact hj
  | succ fuel ih =>
    intro plan hist log j s d hj hd hmiss
    rw [executeLoop]
    dsimp only
    split
    · exact pass_missing_dep _ j s d hj hd hmiss
    · split
      · exact pass_missing_dep _ j s d hj hd hmiss
      · split
        · refine ih _ _ _ j s d (pass_missing_dep _ j s d hj hd hmiss) hd ?_
          have hn : ∀ (A : List PlanStep) (B : Evaluation),
              (notifyEvaluationHandlers [] A B).1 = A := fun A B => rfl
          dsimp only
          rw [hn, executeReadySteps_ids]
          exact hmiss
        · refine ih _ _ _ j s d (pass_missing_dep _ j s d hj hd hmiss) hd ?_
          dsimp only
          rw [executeReadySteps_ids]
          exact hmiss

theorem executeLoop_nil_cases (fuel : Nat) :
    ∀ (plan : ExecutionPlan) (hist : List HistoryEntry) (log : List Evaluation),
      plan.status = .active →
      ((executeLoop [] fuel plan hist log).1.status = .completed ∧
        (evaluatePlan (executeLoop [] fuel plan hist log).1.steps).all_completed = true) ∨
      ((executeLoop [] fuel plan hist log).1.status = .failed ∧
        (evaluatePlan (executeLoop [] fuel plan hist log).1.steps).has_failures = true ∧
        (evaluatePlan (executeLoop [] fuel plan hist log).1.steps).can_continue = false) ∨
      ((executeLoop [] fuel plan hist log).1.status = .active ∧
        ((evaluatePlan (executeLoop [] fuel plan hist log).1.steps).all_completed = false ∨
          (fuel = 0 ∧ executeLoop [] fuel plan hist log = (plan, hist, log)))) := by
  induction fuel with
  | zero =>
    intro plan hist log hact
    exact Or.inr (Or.inr ⟨hact, Or.inr ⟨rfl, rfl⟩⟩)
  | succ fuel ih =>
    intro plan hist log hact
    rw [executeLoop]
    dsimp only
    split
    · next hc => exact Or.inl ⟨rfl, hc⟩
    · next hc1 =>
      split
      · next hc2 =>
        simp only [Bool.and_eq_true, Bool.not_eq_true'] at hc2
        exact Or.inr (Or.inl ⟨rfl, hc2.1, hc2.2⟩)
      · next hc2 =>
        split
        · next hc3 =>
          rcases ih { plan with
                iteration := plan.iteration + 1,
                steps := (notifyEvaluationHandlers []
                  (executeReadySteps plan.steps).1
                  (evaluatePlan (executeReadySteps plan.steps).1)).1,
                status := .active }
              (hist ++ [{ plan_id := plan.plan_id, iteration := plan.iteration + 1,
                          steps_executed := (executeReadySteps plan.steps).2,
                          evaluation := evaluatePlan (executeReadySteps plan.steps).1 }])
              (log ++ [evaluatePlan (executeReadySteps plan.steps).1]) rfl
            with h | h | ⟨ha, hb⟩
          · exact Or.inl h
          · exact Or.inr (Or.inl h)
          · refine Or.inr (Or.inr ⟨ha, Or.inl ?_⟩)
            rcases hb with hb | ⟨_, hb⟩
            · exact hb
            · rw [hb]
              dsimp only
              exact Bool.not_eq_true _ ▸ (by simpa using hc1)
        · next hc3 =>
          rcases ih { plan with
                iteration := plan.iteration + 1,
                steps := (executeReadySteps plan.steps).1 }
              (hist ++ [{ plan_id := plan.plan_id, iteration := plan.iteration + 1,
                          steps_executed := (executeReadySteps plan.steps).2,
                          evaluation := evaluatePlan (executeReadySteps plan.steps).1 }])
              log hact
            with h | h | ⟨ha, hb⟩
          · exact Or.inl h
          · exact Or.inr (Or.inl h)
          · refine Or.inr (Or.inr ⟨ha, Or.inl ?_⟩)
            rcases hb with hb | ⟨_, hb⟩
            · exact hb
            · rw [hb]
              dsimp only
              exact Bool.not_eq_true _ ▸ (by simpa using hc1)

theorem executeLoop_hist (handlers : List Handler) (fuel : Nat) :
    ∀ (plan : ExecutionPlan) (hist : List HistoryEntry) (log : List Evaluation),
      ∃ news : List HistoryEntry,
        (executeLoop handlers fuel plan hist log).2.1 = hist ++ news ∧
        (∀ e ∈ news, e.plan_id = plan.plan_id) ∧
        news.map (fun e => e.iteration) = List.range' (plan.iteration + 1) news.length ∧
        news.length + plan.iteration
          = (executeLoop handlers fuel plan hist log).1.iteration := by
  induction fuel with
  | zero =>
    intro plan hist log
    refine ⟨[], by simp [executeLoop], by simp, by simp, by simp [executeLoop]⟩
  | succ fuel ih =>
    intro plan hist log
    rw [executeLoop]
    dsimp only
    split
    · refine ⟨[{ plan_id := plan.plan_id, iteration := plan.iteration + 1, steps_executed := (executeReadySteps plan.steps).2, evaluation := evaluatePlan (executeReadySteps plan.steps).1 }], rfl, ?_, ?_, ?_⟩
      · intro e he; rw [List.mem_singleton] at he; rw [he]
      · simp [List.range'_one]
      · simp [Nat.add_comm]
    · split
      · refine ⟨[{ plan_id := plan.plan_id, iteration := plan.iteration + 1, steps_executed := (executeReadySteps plan.steps).2, evaluation := evaluatePlan (executeReadySteps plan.steps).1 }], rfl, ?_, ?_, ?_⟩
        · intro e he; rw [List.mem_singleton] at he; rw [he]
        · simp [List.range'_one]
        · simp [Nat.add_comm]
      · split
        · rcases ih { plan with
              iteration := plan.iteration + 1,
              steps := (notifyEvaluationHandlers handlers
                (executeReadySteps plan.steps).1
                (evaluatePlan (executeReadySteps plan.steps).1)).1,
              status := .active }
            (hist ++ [{ plan_id := plan.plan_id, iteration := plan.iteration + 1,
                        steps_executed := (executeReadySteps plan.steps).2,
                        evaluation := evaluatePlan (executeReadySteps plan.steps).1 }])
            (log ++ [evaluatePlan (executeReadySteps plan.steps).1])
            with ⟨news, h1, h2, h3, h4⟩
          dsimp only at h1 h2 h3 h4
          refine ⟨{ plan_id := plan.plan_id, iteration := plan.iteration + 1, steps_executed := (executeReadySteps plan.steps).2, evaluation := evaluatePlan (executeReadySteps plan.steps).1 } :: news, ?_, ?_, ?_, ?_⟩
          · rw [h1, List.append_assoc]; rfl
          · intro e he
            rcases List.mem_cons.mp he with he | he
            · rw [he]
            · exact h2 e he
          · rw [List.length_cons, List.map_cons, h3, List.range'_succ]
          · rw [List.length_cons]; omega
        · rcases ih { plan with
              iteration := plan.iteration + 1,
              steps := (executeReadySteps plan.steps).1 }
            (hist ++ [{ plan_id := plan.plan_id, iteration := plan.iteration + 1,
                        steps_executed := (executeReadySteps plan.steps).2,
                        evaluation := evaluatePlan (executeReadySteps plan.steps).1 }])
            log
            with ⟨news, h1, h2, h3, h4⟩
          dsimp only at h1 h2 h3 h4
          refine ⟨{ plan_id := plan.plan_id, iteration := plan.iteration + 1, steps_executed := (executeReadySteps plan.steps).2, evaluation := evaluatePlan (executeReadySteps plan.steps).1 } :: news, ?_, ?_, ?_, ?_⟩
          · rw [h1, List.append_assoc]; rfl
          · intro e he
            rcases List.mem_cons.mp he with he | he
            · rw [he]
            · exact h2 e he
          · rw [List.length_cons, List.map_cons, h3, List.range'_succ]
          · rw [List.length_cons]; omega

theorem executeLoop_evlog (handlers : List Handler) (fuel : Nat) :
    ∀ (plan : ExecutionPlan) (hist : List HistoryEntry) (log : List Evaluation),
      ∀ ev ∈ (executeLoop handlers fuel plan hist log).2.2,
        ev ∈ log ∨ (ev.needs_replanning = true ∧ ev.has_failures = true ∧ 0 < ev.failed) := by
  induction fuel with
  | zero => intro plan hist log ev hev; exact Or.inl hev
  | succ fuel ih =>
    intro plan hist log ev hev
    rw [executeLoop] at hev
    dsimp only at hev
    split at hev
    · exact Or.inl hev
    · split at hev
      · exact Or.inl hev
      · split at hev
        · next hc3 =>
          rcases ih _ _ _ ev hev with hin | hprop
          · rcases List.mem_append.mp hin with hin | hin
            · exact Or.inl hin
            · rw [List.mem_singleton] at hin
              subst hin
              refine Or.inr ⟨hc3, ?_⟩
              have := evaluatePlan_needs_imp _ hc3
              exact ⟨this.1, this.2⟩
          · exact Or.inr hprop
        · exact ih _ _ _ ev hev

theorem executeLoop_pure_handlers (handlers : List Handler)
    (hp : ∀ hd ∈ handlers, ∀ st e, hd st e = (st, true)) (fuel : Nat) :
    ∀ (plan : ExecutionPlan) (hist : List HistoryEntry) (log : List Evaluation),
      executeLoop handlers fuel plan hist log = executeLoop [] fuel plan hist log := by
  induction fuel with
  | zero => intro plan hist log; rfl
  | succ fuel ih =>
    intro plan hist log
    rw [executeLoop, executeLoop]
    dsimp only
    split
    · rfl
    · split
      · rfl
      · split
        · rw [notify_pure _ _ _ hp]
          have hn : ∀ (A : List PlanStep) (B : Evaluation),
              (notifyEvaluationHandlers [] A B).1 = A := fun A B => rfl
          rw [hn]
          exact ih _ _ _
        · exact ih _ _ _

/-! Projections of `executePlan` onto the loop run, and single-step
success lemmas. -/

theorem executePlan_proj (handlers : List Handler) (plan : ExecutionPlan)
    (hist : List HistoryEntry) :
    (executePlan handlers plan hist).1.steps
      = (executeLoop handlers (plan.max_iterations - plan.iteration)
          { plan with status := .active } hist []).1.steps ∧
    (executePlan handlers plan hist).1.iteration
      = (executeLoop handlers (plan.max_iterations - plan.iteration)
          { plan with status := .active } hist []).1.iteration ∧
    (executePlan handlers plan hist).1.max_iterations
      = (executeLoop handlers (plan.max_iterations - plan.iteration)
          { plan with status := .active } hist []).1.max_iterations ∧
    (executePlan handlers plan hist).2
      = (executeLoop handlers (plan.max_iterations - plan.iteration)
          { plan with status := .active } hist []).2 := by
  unfold executePlan
  dsimp only
  split <;> exact ⟨rfl, rfl, rfl, rfl⟩

theorem executePlan_status_force (handlers : List Handler) (plan : ExecutionPlan)
    (hist : List HistoryEntry) :
    ((executeLoop handlers (plan.max_iterations - plan.iteration)
        { plan with status := .active } hist []).1.status = .active →
      (executePlan handlers plan hist).1.status = .failed) ∧
    ((executeLoop handlers (plan.max_iterations - plan.iteration)
        { plan with status := .active } hist []).1.status ≠ .active →
      (executePlan handlers plan hist).1.status
        = (executeLoop handlers (plan.max_iterations - plan.iteration)
            { plan with status := .active } hist []).1.status) := by
  unfold executePlan
  dsimp only
  split
  · next hc =>
    refine ⟨fun _ => rfl, fun hne => absurd ?_ hne⟩
    simpa using hc
  · next hc =>
    refine ⟨fun ha => absurd ?_ hc, fun _ => rfl⟩
    simp [ha]

theorem executeStep_noaction (s : PlanStep) (h : s.action = none) :
    executeStep s = { s with status := .completed } := by
  unfold executeStep
  dsimp only
  rw [h]

theorem executeStep_success (s : PlanStep)
    (h : ∀ act, s.action = some act → act s.retry_count = true) :
    executeStep s = { s with status := .completed } := by
  unfold executeStep
  dsimp only
  cases hact : s.action with
  | none => rfl
  | some act =>
    dsimp only
    rw [if_pos (h act hact)]

/-! A pass over a plan whose pending steps only depend on ids declared
strictly earlier drains every remaining step (C3, in-order chains). -/

theorem pass_inorder :
    ∀ (todo done : List PlanStep) (ex : Nat),
      (∀ s ∈ done, s.status = .completed) →
      (((done ++ todo).map (fun u => u.step_id)).Nodup) →
      (∀ s ∈ todo, s.status = .pending) →
      (∀ s ∈ todo, ∀ act, s.action = some act → act s.retry_count = true) →
      (∀ (j : Nat) (s : PlanStep), todo[j]? = some s →
        ∀ d ∈ s.depends_on, d ∈ ((done ++ todo.take j).map (fun u => u.step_id))) →
      ∀ x ∈ (execPassAux done todo ex).1, x.status = .completed := by
  intro todo
  induction todo with
  | nil => intro done ex _ _ _ _ _ x hx; cases hx
  | cons s rest ih =>
    intro done ex hdone hnd htodo hact hdeps x hx
    have hsp : s.status = .pending := htodo s (by simp)
    have hsat : dependenciesSatisfied (done ++ s :: rest) s = true := by
      unfold dependenciesSatisfied
      rw [List.all_eq_true]
      intro d hd
      have hdin : d ∈ (done ++ (s :: rest).take 0).map (fun u => u.step_id) :=
        hdeps 0 s (by simp) d hd
      rw [List.take_zero, List.append_nil] at hdin
      rcases List.mem_map.mp hdin with ⟨t, ht, htid⟩
      have hlk : lookupStep (done ++ s :: rest) d = some t := by
        rw [← htid]
        exact lookupStep_of_nodup _ t hnd (List.mem_append_left _ ht)
      rw [hlk]
      simp [hdone t ht]
    have hguard : (s.status == .pending && dependenciesSatisfied (done ++ s :: rest) s) = true := by
      rw [hsat, hsp]
      rfl
    rw [execPassAux, if_pos hguard] at hx
    dsimp only at hx
    have hes : executeStep s = { s with status := .completed } :=
      executeStep_success s (hact s (by simp))
    rcases List.mem_cons.mp hx with hx | hx
    · rw [hx, hes]
    · have hids : ((done ++ [executeStep s]) ++ rest).map (fun u => u.step_id)
          = (done ++ s :: rest).map (fun u => u.step_id) := by
        simp [executeStep_step_id, List.append_assoc]
      refine ih (done ++ [executeStep s]) (ex + 1) ?_ ?_ ?_ ?_ ?_ x hx
      · intro t ht
        rcases List.mem_append.mp ht with ht | ht
        · exact hdone t ht
        · rw [List.mem_singleton] at ht
          rw [ht, hes]
      · rw [hids]; exact hnd
      · intro t ht; exact htodo t (List.mem_cons_of_mem _ ht)
      · intro t ht; exact hact t (List.mem_cons_of_mem _ ht)
      · intro j t hjt d hd
        have := hdeps (j + 1) t (by simpa using hjt) d hd
        have hids2 : ((done ++ [executeStep s]) ++ rest.take j).map (fun u => u.step_id)
            = (done ++ (s :: rest).take (j + 1)).map (fun u => u.step_id) := by
          simp [executeStep_step_id, List.append_assoc]
        rw [hids2]
        exact this

/-! Reverse-declared chains (C3): state descriptors and their counts. -/

theorem completeFrom_length : ∀ (l : List PlanStep) (m : Nat),
    (completeFrom m l).length = l.length := by
  intro l
  induction l with
  | nil => intro m; cases m <;> rfl
  | cons x rest ih =>
    intro m
    cases m with
    | zero => simp [completeFrom, ih]
    | succ m => simp [completeFrom, ih]

theorem completeFrom_ids : ∀ (l : List PlanStep) (m : Nat),
    (completeFrom m l).map (fun u => u.step_id) = l.map (fun u => u.step_id) := by
  intro l
  induction l with
  | nil => intro m; cases m <;> rfl
  | cons x rest ih =>
    intro m
    cases m with
    | zero => simp [completeFrom, ih]
    | succ m => simp [completeFrom, ih]

theorem completeFrom_ge : ∀ (l : List PlanStep) (m : Nat),
    l.length ≤ m → completeFrom m l = l := by
  intro l
  induction l with
  | nil => intro m _; cases m <;> rfl
  | cons x rest ih =>
    intro m hm
    cases m with
    | zero => simp at hm
    | succ m =>
      rw [show completeFrom (m + 1) (x :: rest) = x :: completeFrom m rest from rfl]
      rw [ih m (by simpa using hm)]

theorem completeFrom_zero_status : ∀ (l : List PlanStep),
    ∀ x ∈ completeFrom 0 l, x.status = .completed := by
  intro l
  induction l with
  | nil => intro x hx; cases hx
  | cons y rest ih =>
    intro x hx
    rcases List.mem_cons.mp hx with hx | hx
    · rw [hx]
    · exact ih x hx

theorem revChain_ids : ∀ (ids : List String),
    (revChain ids).map (fun u => u.step_id) = ids := by
  intro ids
  induction ids with
  | nil => rfl
  | cons a rest ih =>
    cases rest with
    | nil => rfl
    | cons b rest2 =>
      rw [revChain, List.map_cons, ih]

theorem revChain_fresh : ∀ (ids : List String),
    ∀ x ∈ revChain ids, x.status = .pending ∧ x.action = none := by
  intro ids
  induction ids with
  | nil => intro x hx; cases hx
  | cons a rest ih =>
    cases rest with
    | nil =>
      intro x hx
      rw [revChain, List.mem_singleton] at hx
      rw [hx]
      exact ⟨rfl, rfl⟩
    | cons b rest2 =>
      intro x hx
      rw [revChain] at hx
      rcases List.mem_cons.mp hx with hx | hx
      · rw [hx]; exact ⟨rfl, rfl⟩
      · exact ih x hx

theorem countStatus_cons (x : PlanStep) (l : List PlanStep) (st : StepStatus) :
    countStatus (x :: l) st = (if x.status = st then 1 else 0) + countStatus l st := by
  by_cases h : x.status = st
  · simp [countStatus, List.filter_cons, h, Nat.add_comm]
  · simp [countStatus, List.filter_cons, h]

theorem completeFrom_counts : ∀ (l : List PlanStep) (m : Nat),
    (∀ x ∈ l, x.status = .pending) →
    countStatus (completeFrom m l) .completed = l.length - m ∧
    countStatus (completeFrom m l) .pending = min m l.length ∧
    countStatus (completeFrom m l) .failed = 0 := by
  intro l
  induction l with
  | nil =>
    intro m _
    refine ⟨?_, ?_, ?_⟩ <;> cases m <;> simp [completeFrom, countStatus]
  | cons x rest ih =>
    intro m hp
    have hx : x.status = .pending := hp x (by simp)
    have ihm : ∀ mm, countStatus (completeFrom mm rest) .completed = rest.length - mm ∧
        countStatus (completeFrom mm rest) .pending = min mm rest.length ∧
        countStatus (completeFrom mm rest) .failed = 0 :=
      fun mm => ih mm (fun y hy => hp y (List.mem_cons_of_mem _ hy))
    cases m with
    | zero =>
      rcases ihm 0 with ⟨h1, h2, h3⟩
      have hcf : completeFrom 0 (x :: rest) = { x with status := .completed } :: completeFrom 0 rest := rfl
      refine ⟨?_, ?_, ?_⟩ <;> rw [hcf, countStatus_cons] <;> simp [h1, h2, h3] <;> omega
    | succ m =>
      rcases ihm m with ⟨h1, h2, h3⟩
      have hcf : completeFrom (m + 1) (x :: rest) = x :: completeFrom m rest := rfl
      refine ⟨?_, ?_, ?_⟩ <;> rw [hcf, countStatus_cons] <;> simp [hx, h1, h2, h3] <;> omega

theorem chain_pass : ∀ (ids : List String), ids.Nodup →
    ∀ (done : List PlanStep) (ex m : Nat), 0 < m → m ≤ ids.length →
      execPassAux done (completeFrom m (revChain ids)) ex
        = (completeFrom (m - 1) (revChain ids), ex + 1) := by
  intro ids
  induction ids with
  | nil => intro _ done ex m hm hle; simp at hle; omega
  | cons a rest ih =>
    cases rest with
    | nil =>
      intro _ done ex m hm hle
      simp at hle
      have hm1 : m = 1 := by omega
      subst hm1
      rfl
    | cons b rest2 =>
      intro hnd done ex m hm hle
      obtain ⟨tdep, tail2, htail⟩ :
          ∃ tdep tail2, revChain (b :: rest2)
            = { step_id := b, depends_on := tdep } :: tail2 := by
        cases rest2 with
        | nil => exact ⟨[], [], rfl⟩
        | cons c rest3 => exact ⟨[c], _, rfl⟩
      have hchain : revChain (a :: b :: rest2)
          = { step_id := a, depends_on := [b] } :: revChain (b :: rest2) := rfl
      cases m with
      | zero => omega
      | succ m =>
        cases m with
        | zero =>
          -- one pending step left: the head executes against the completed tail
          rw [hchain]
          rw [show completeFrom 1 (({ step_id := a, depends_on := [b] } : PlanStep) :: revChain (b :: rest2)) = ({ step_id := a, depends_on := [b] } : PlanStep) :: completeFrom 0 (revChain (b :: rest2)) from rfl]
          have hl2ids : (({ step_id := a, depends_on := [b] } : PlanStep) :: completeFrom 0 (revChain (b :: rest2))).map (fun u => u.step_id) = a :: b :: rest2 := by
            rw [List.map_cons, completeFrom_ids, revChain_ids]
          have hmem : ({ step_id := b, depends_on := tdep, status := .completed } : PlanStep) ∈
              ({ step_id := a, depends_on := [b] } : PlanStep) :: completeFrom 0 (revChain (b :: rest2)) := by
            rw [htail]
            exact List.mem_cons_of_mem _ (by rw [show completeFrom 0 (({ step_id := b, depends_on := tdep } : PlanStep) :: tail2) = ({ step_id := b, depends_on := tdep, status := .completed } : PlanStep) :: completeFrom 0 tail2 from rfl]; simp)
          have hlk : lookupStep (done ++ ({ step_id := a, depends_on := [b] } : PlanStep) :: completeFrom 0 (revChain (b :: rest2))) b = some { step_id := b, depends_on := tdep, status := .completed } := by
            rw [lookupStep_append_right _ _ b (by rw [hl2ids]; simp)]
            exact lookupStep_of_nodup _ ({ step_id := b, depends_on := tdep, status := .completed } : PlanStep) (by rw [hl2ids]; exact hnd) hmem
          have hsat : dependenciesSatisfied (done ++ ({ step_id := a, depends_on := [b] } : PlanStep) :: completeFrom 0 (revChain (b :: rest2))) { step_id := a, depends_on := [b] } = true := by
            unfold dependenciesSatisfied
            rw [List.all_eq_true]
            intro d hd
            rw [List.mem_singleton] at hd
            subst hd
            rw [hlk]
            rfl
          rw [execPassAux, if_pos (by rw [hsat]; rfl)]
          rw [execPassAux_skip _ _ _ (fun x hx => by rw [completeFrom_zero_status _ x hx]; decide)]
          rfl
        | succ m =>
          -- at least two pending: the head's dependency is still pending, head skipped
          rw [hchain]
          rw [show completeFrom (m + 2) (({ step_id := a, depends_on := [b] } : PlanStep) :: revChain (b :: rest2)) = ({ step_id := a, depends_on := [b] } : PlanStep) :: completeFrom (m + 1) (revChain (b :: rest2)) from rfl]
          have hl2ids : (({ step_id := a, depends_on := [b] } : PlanStep) :: completeFrom (m + 1) (revChain (b :: rest2))).map (fun u => u.step_id) = a :: b :: rest2 := by
            rw [List.map_cons, completeFrom_ids, revChain_ids]
          have hcf : completeFrom (m + 1) (revChain (b :: rest2)) = ({ step_id := b, depends_on := tdep } : PlanStep) :: completeFrom m tail2 := by
            rw [htail]
            rfl
          have hmem : ({ step_id := b, depends_on := tdep } : PlanStep) ∈ ({ step_id := a, depends_on := [b] } : PlanStep) :: completeFrom (m + 1) (revChain (b :: rest2)) := by
            rw [hcf]
            exact List.mem_cons_of_mem _ (by simp)
          have hlk : lookupStep (done ++ ({ step_id := a, depends_on := [b] } : PlanStep) :: completeFrom (m + 1) (revChain (b :: rest2))) b = some { step_id := b, depends_on := tdep } := by
            rw [lookupStep_append_right _ _ b (by rw [hl2ids]; simp)]
            exact lookupStep_of_nodup _ ({ step_id := b, depends_on := tdep } : PlanStep) (by rw [hl2ids]; exact hnd) hmem
          have hsat : dependenciesSatisfied (done ++ ({ step_id := a, depends_on := [b] } : PlanStep) :: completeFrom (m + 1) (revChain (b :: rest2))) { step_id := a, depends_on := [b] } = false := by
            unfold dependenciesSatisfied
            rw [List.all_eq_false]
            refine ⟨b, by simp, ?_⟩
            rw [hlk]
            simp
          rw [execPassAux, if_neg (by rw [hsat]; simp)]
          have hihm := ih (List.Nodup.of_cons hnd) (done ++ [{ step_id := a, depends_on := [b] }]) ex (m + 1) (by omega) (by simp at hle ⊢; omega)
          dsimp only
          rw [hihm]
          rfl

theorem chain_loop : ∀ (m : Nat) (ids : List String) (plan : ExecutionPlan)
    (hist : List HistoryEntry) (log : List Evaluation) (fuel : Nat),
    ids.Nodup → 0 < m → m ≤ ids.length → m ≤ fuel →
    plan.steps = completeFrom m (revChain ids) →
    (executeLoop [] fuel plan hist log).1.status = .completed ∧
    (executeLoop [] fuel plan hist log).1.iteration = plan.iteration + m ∧
    ∃ news : List HistoryEntry,
      (executeLoop [] fuel plan hist log).2.1 = hist ++ news ∧
      news.map (fun e => (e.steps_executed, e.evaluation.completed))
        = (List.range m).map (fun k => (1, ids.length - m + k + 1)) := by
  intro m
  induction m with
  | zero => intro ids plan hist log fuel _ hm; omega
  | succ m ih =>
    intro ids plan hist log fuel hnd hm hle hfuel hsteps
    have hlen : (revChain ids).length = ids.length := by
      have := congrArg List.length (revChain_ids ids)
      rwa [List.length_map] at this
    have hfresh : ∀ x ∈ revChain ids, x.status = .pending :=
      fun x hx => (revChain_fresh ids x hx).1
    cases fuel with
    | zero => omega
    | succ fuel2 =>
      rw [executeLoop]
      dsimp only
      rw [hsteps]
      have hpass : executeReadySteps (completeFrom (m + 1) (revChain ids))
          = (completeFrom m (revChain ids), 0 + 1) :=
        chain_pass ids hnd [] 0 (m + 1) (by omega) hle
      rw [hpass]
      dsimp only
      rcases completeFrom_counts (revChain ids) m hfresh with ⟨hcc, hcp, hcf0⟩
      cases m with
      | zero =>
        have hac : (evaluatePlan (completeFrom 0 (revChain ids))).all_completed = true := by
          rw [evaluatePlan_all_completed, hcc, completeFrom_length, hlen]
          have h0 : 0 < ids.length := by omega
          simp [h0]
        rw [if_pos hac]
        refine ⟨rfl, by dsimp only, ?_⟩
        refine ⟨[{ plan_id := plan.plan_id, iteration := plan.iteration + 1, steps_executed := 0 + 1, evaluation := evaluatePlan (completeFrom 0 (revChain ids)) }], rfl, ?_⟩
        have hA : (evaluatePlan (completeFrom 0 (revChain ids))).completed
            = ids.length - (0 + 1) + 0 + 1 := by
          rw [evaluatePlan_completed_eq, hcc, hlen]
          omega
        rw [List.map_singleton, show (List.range 1) = [0] from rfl, List.map_singleton, hA]
      | succ m2 =>
        have hac : (evaluatePlan (completeFrom (m2 + 1) (revChain ids))).all_completed = false := by
          rw [evaluatePlan_all_completed, hcc, completeFrom_length, hlen]
          simp
          omega
        have hhf : (evaluatePlan (completeFrom (m2 + 1) (revChain ids))).has_failures = false := by
          rw [evaluatePlan_has_failures, hcf0]
          rfl
        have hnr : (evaluatePlan (completeFrom (m2 + 1) (revChain ids))).needs_replanning = false := by
          rw [evaluatePlan_needs, hcf0]
          rfl
        rw [if_neg (by rw [hac]; simp), if_neg (by rw [hhf]; simp), if_neg (by rw [hnr]; simp)]
        rcases ih ids { plan with iteration := plan.iteration + 1, steps := completeFrom (m2 + 1) (revChain ids) }
            (hist ++ [{ plan_id := plan.plan_id, iteration := plan.iteration + 1, steps_executed := 0 + 1, evaluation := evaluatePlan (completeFrom (m2 + 1) (revChain ids)) }])
            log fuel2 hnd (by omega) (by omega) (by omega) rfl
          with ⟨hst, hit, news2, h1, h2⟩
        refine ⟨hst, by rw [hit]; dsimp only; omega, ?_⟩
        refine ⟨{ plan_id := plan.plan_id, iteration := plan.iteration + 1, steps_executed := 0 + 1, evaluation := evaluatePlan (completeFrom (m2 + 1) (revChain ids)) } :: news2, ?_, ?_⟩
        · rw [h1, List.append_assoc]
          rfl
        · rw [List.map_cons, h2]
          conv_rhs => rw [List.range_succ_eq_map, List.map_cons, List.map_map]
          congr 1
          · rw [evaluatePlan_completed_eq, hcc, hlen]
            have h9 : ids.length - (m2 + 1) = ids.length - (m2 + 1 + 1) + 0 + 1 := by omega
            rw [h9]
          · apply List.map_congr_left
            intro k hk
            rw [List.mem_range] at hk
            rw [Function.comp_apply]
            have h9 : ids.length - (m2 + 1) + k + 1 = ids.length - (m2 + 1 + 1) + (k + 1) + 1 := by omega
            rw [h9]

/-! Claim theorems. -/

/-- C1 counterexample: the claim says a Step's `retry_count` never exceeds
its `max_retries`.  On the code, a step whose action always raises with
`max_retries = 1` finishes FAILED with `retry_count = 2 > 1`: on a raise the
source increments first and only then compares (`retry_count <= max_retries`),
so the exhausted count is `max_retries + 1`. -/
theorem C1_counterexample :
    ((executePlan [] alwaysFailPlan []).1.steps.any
      (fun s => decide (s.max_retries < s.retry_count))) = true ∧
    ((executePlan [] alwaysFailPlan []).1.steps.map
      (fun s => (s.status, s.retry_count, s.max_retries))) = [(.failed, 2, 1)] := by
  exact ⟨rfl, rfl⟩

/-- C1 (amended): after `execute_plan` finishes, every Step's `retry_count`
is at most `max_retries + 1`, a FAILED Step has exhausted its retries
(`retry_count > max_retries`), and a Step that is already FAILED undergoes
no further transition in any later pass or subsequent `execute_plan` call
(its list entry is returned unchanged). -/
theorem C1_retry_bound :
    ∀ (plan : ExecutionPlan) (hist : List HistoryEntry),
      (∀ s ∈ plan.steps, stepWF s) →
      (∀ s ∈ (executePlan [] plan hist).1.steps,
         s.retry_count ≤ s.max_retries + 1 ∧
         (s.status = .failed → s.max_retries < s.retry_count)) ∧
      (∀ (j : Nat) (s : PlanStep), plan.steps[j]? = some s → s.status = .failed →
         (executePlan [] plan hist).1.steps[j]? = some s) := by
  intro plan hist hwf
  have hsteps := (executePlan_proj [] plan hist).1
  constructor
  · intro s hs
    rw [hsteps] at hs
    have hwf2 := (executeLoop_nil_steps (plan.max_iterations - plan.iteration)
      { plan with status := .active } hist []).2.2 (by dsimp only; exact hwf) s hs
    exact ⟨hwf2.1, hwf2.2.2⟩
  · intro j s hj hf
    rw [hsteps]
    exact executeLoop_nil_frozen _ _ _ _ j s (by dsimp only; exact hj)
      (by rw [hf]; decide)

/-- C1 witness: the amended claim at the concrete always-failing plan and at
a plan whose step is already FAILED. -/
theorem C1_witness :
    alwaysFailStepFinal.retry_count ≤ alwaysFailStepFinal.max_retries + 1 ∧
    (executePlan [] { alwaysFailPlan with steps := [alwaysFailStepFinal] } []).1.steps[0]?
      = some alwaysFailStepFinal := by
  constructor
  · exact ((C1_retry_bound alwaysFailPlan [] (by decide)).1 alwaysFailStepFinal
      (List.getElem?_mem (show (executePlan [] alwaysFailPlan []).1.steps[0]?
        = some alwaysFailStepFinal from rfl))).1
  · exact (C1_retry_bound { alwaysFailPlan with steps := [alwaysFailStepFinal] } []
      (by decide)).2 0 alwaysFailStepFinal rfl rfl

/-- C2 counterexample: on the code, `all_completed` demands `total > 0`, so
a Plan with an empty step sequence never reaches COMPLETED: the loop runs
all `max_iterations` passes and the post-loop finalization forces FAILED,
even though every (zero) Step is vacuously COMPLETED.  The claimed
biconditional fails for the empty plan. -/
theorem C2_counterexample :
    (executePlan [] emptyPlan []).1.status = .failed ∧
    (executePlan [] emptyPlan []).1.steps.all (fun s => s.status == .completed) = true := by
  exact ⟨rfl, rfl⟩

/-- C2 (amended): for a Plan with a nonempty step sequence executed with
budget remaining (`iteration < max_iterations`), the final status is
COMPLETED iff every Step finishes COMPLETED.  (The empty plan always ends
FAILED, per the counterexample.) -/
theorem C2_completed_iff :
    ∀ (plan : ExecutionPlan) (hist : List HistoryEntry),
      plan.steps ≠ [] → plan.iteration < plan.max_iterations →
      ((executePlan [] plan hist).1.status = .completed ↔
        ∀ s ∈ (executePlan [] plan hist).1.steps, s.status = .completed) := by
  intro plan hist hne hlt
  have hsteps := (executePlan_proj [] plan hist).1
  have hforce := executePlan_status_force [] plan hist
  have hcases := executeLoop_nil_cases (plan.max_iterations - plan.iteration)
    { plan with status := .active } hist [] rfl
  have hlen := (executeLoop_nil_steps (plan.max_iterations - plan.iteration)
    { plan with status := .active } hist []).1
  dsimp only at hlen
  constructor
  · intro hc
    rcases hcases with ⟨h1, h2⟩ | ⟨h1, _, _⟩ | ⟨h1, _⟩
    · intro s hs
      rw [hsteps] at hs
      exact ((evaluatePlan_all_completed_iff _).mp h2).1 s hs
    · exfalso
      rw [hforce.2 (by rw [h1]; decide), h1] at hc
      cases hc
    · exfalso
      rw [hforce.1 h1] at hc
      cases hc
  · intro hall
    have hallL : ∀ s ∈ (executeLoop [] (plan.max_iterations - plan.iteration)
        { plan with status := .active } hist []).1.steps, s.status = .completed := by
      rw [← hsteps]; exact hall
    have hneL : (executeLoop [] (plan.max_iterations - plan.iteration)
        { plan with status := .active } hist []).1.steps ≠ [] := by
      intro hx
      apply hne
      rw [hx] at hlen
      exact List.eq_nil_of_length_eq_zero hlen.symm
    have hevc := (evaluatePlan_all_completed_iff _).mpr ⟨hallL, hneL⟩
    rcases hcases with ⟨h1, _⟩ | ⟨h1, h2, _⟩ | ⟨h1, hb⟩
    · rw [hforce.2 (by rw [h1]; decide), h1]
    · exfalso
      rcases (evaluatePlan_has_failures_iff _).mp h2 with ⟨s, hsmem, hsf⟩
      rw [hallL s hsmem] at hsf
      cases hsf
    · exfalso
      rcases hb with hb | ⟨hb, _⟩
      · rw [hevc] at hb; cases hb
      · have hx : plan.max_iterations - plan.iteration ≠ 0 := by omega
        exact hx hb

/-- C2 witness: the amended biconditional at the concrete two-step chain,
used in the direction that all steps completed forces status COMPLETED. -/
theorem C2_witness :
    (executePlan [] twoChainPlan []).1.status = .completed := by
  exact (C2_completed_iff twoChainPlan [] (List.cons_ne_nil _ _) (by decide)).mpr (by decide)

/-- C6: for a one-step plan whose action raises on every invocation with
`max_retries = 1`, the action is invoked exactly once in each of the first
two passes (`steps_executed = 1` in both history entries, and the step's
final `retry_count = 2`, one increment per raising invocation); after the
second attempt the step is FAILED; the plan stops FAILED at iteration 2 via
the unrecoverable-failure branch (the final evaluation has `has_failures`
and not `can_continue`), not by budget exhaustion (iteration 2 < 5). -/
theorem C6_always_fail_two_attempts :
    (executePlan [] alwaysFailPlan []).1.status = .failed ∧
    (executePlan [] alwaysFailPlan []).1.iteration = 2 ∧
    (executePlan [] alwaysFailPlan []).1.iteration
      < (executePlan [] alwaysFailPlan []).1.max_iterations ∧
    ((executePlan [] alwaysFailPlan []).1.steps.map
      (fun s => (s.status, s.retry_count))) = [(.failed, 2)] ∧
    ((executePlan [] alwaysFailPlan []).2.1.map
      (fun e => (e.iteration, e.steps_executed))) = [(1, 1), (2, 1)] ∧
    ((executePlan [] alwaysFailPlan []).2.1.map
      (fun e => (e.evaluation.has_failures, e.evaluation.can_continue)))
      = [(false, true), (true, false)] := by
  refine ⟨rfl, rfl, by decide, rfl, rfl, rfl⟩

/-- C10: if a plan's iteration counter already equals (or exceeds) its
`max_iterations` when `execute_plan` is invoked, the call runs zero passes,
appends no history entries, and forces the status to FAILED, whatever the
status was before — the loop guard fails at once and the post-loop
finalization sees the ACTIVE status just set by `execute_plan`. -/
theorem C10_spent_budget :
    ∀ (handlers : List Handler) (plan : ExecutionPlan) (hist : List HistoryEntry),
      plan.max_iterations ≤ plan.iteration →
      executePlan handlers plan hist = ({ plan with status := .failed }, hist, []) := by
  intro handlers plan hist h
  unfold executePlan
  dsimp only
  rw [Nat.sub_eq_zero_of_le h]
  rfl

/-- C10 witness: a plan already at its ceiling and previously COMPLETED is
forced to FAILED with no new history. -/
theorem C10_witness :
    executePlan [] spentPlan [] = ({ spentPlan with status := .failed }, [], []) ∧
    spentPlan.status = .completed ∧
    ({ spentPlan with status := .failed }).iteration = spentPlan.iteration := by
  exact ⟨C10_spent_budget [] spentPlan [] (by decide), rfl, rfl⟩

/-- C3: (1) in a Plan of fresh steps whose actions succeed on first attempt
and whose dependencies all name steps declared strictly earlier in the
insertion sequence (ids distinct), every step completes within the first
pass, so `execute_plan` returns COMPLETED at iteration 1; (2) a chain
declared in the reverse of its dependency order (each step depending on the
next one in the sequence) advances exactly one link per iteration: the run
takes exactly `n` iterations, each history entry records one executed step,
and the completed count grows by one per pass. -/
theorem C3_chain_drain :
    (∀ (plan : ExecutionPlan) (hist : List HistoryEntry),
      plan.steps ≠ [] → plan.iteration = 0 → 0 < plan.max_iterations →
      ((plan.steps.map (fun u => u.step_id)).Nodup) →
      (∀ s ∈ plan.steps, s.status = .pending) →
      (∀ s ∈ plan.steps, ∀ act, s.action = some act → act s.retry_count = true) →
      (∀ (j : Nat) (s : PlanStep), plan.steps[j]? = some s →
        ∀ d ∈ s.depends_on, d ∈ ((plan.steps.take j).map (fun u => u.step_id))) →
      (executePlan [] plan hist).1.status = .completed ∧
      (executePlan [] plan hist).1.iteration = 1 ∧
      (∀ s ∈ (executePlan [] plan hist).1.steps, s.status = .completed)) ∧
    (∀ (ids : List String) (hist : List HistoryEntry), ids.Nodup → ids ≠ [] →
      (executePlan [] { plan_id := "chain", steps := revChain ids, max_iterations := ids.length } hist).1.status = .completed ∧
      (executePlan [] { plan_id := "chain", steps := revChain ids, max_iterations := ids.length } hist).1.iteration = ids.length ∧
      ∃ news : List HistoryEntry,
        (executePlan [] { plan_id := "chain", steps := revChain ids, max_iterations := ids.length } hist).2.1 = hist ++ news ∧
        news.map (fun e => (e.steps_executed, e.evaluation.completed))
          = (List.range ids.length).map (fun k => (1, k + 1))) := by
  constructor
  · intro plan hist hne hit0 hmax hnd hpend hact hdeps
    have hpassc : ∀ x ∈ (executeReadySteps plan.steps).1, x.status = .completed := by
      intro x hx
      refine pass_inorder plan.steps [] 0 (by intro s hs; cases hs)
        (by simpa using hnd) hpend hact ?_ x hx
      intro j s hjs d hd
      simpa using hdeps j s hjs d hd
    have hlenp : (executeReadySteps plan.steps).1.length = plan.steps.length :=
      executeReadySteps_length _
    have hnonempty : (executeReadySteps plan.steps).1 ≠ [] := by
      intro hx
      apply hne
      rw [hx] at hlenp
      exact List.eq_nil_of_length_eq_zero hlenp.symm
    have hac : (evaluatePlan (executeReadySteps plan.steps).1).all_completed = true :=
      (evaluatePlan_all_completed_iff _).mpr ⟨hpassc, hnonempty⟩
    obtain ⟨f2, hf2⟩ : ∃ f2, plan.max_iterations - plan.iteration = f2 + 1 :=
      ⟨plan.max_iterations - 1, by omega⟩
    have hL3 : (executeLoop [] (plan.max_iterations - plan.iteration)
          { plan with status := .active } hist []).1.status = .completed ∧
        (executeLoop [] (plan.max_iterations - plan.iteration)
          { plan with status := .active } hist []).1.iteration = plan.iteration + 1 ∧
        (executeLoop [] (plan.max_iterations - plan.iteration)
          { plan with status := .active } hist []).1.steps
          = (executeReadySteps plan.steps).1 := by
      rw [hf2, executeLoop]
      dsimp only
      rw [if_pos hac]
      exact ⟨rfl, rfl, rfl⟩
    have hproj := executePlan_proj [] plan hist
    have hforce := executePlan_status_force [] plan hist
    refine ⟨?_, ?_, ?_⟩
    · rw [hforce.2 (by rw [hL3.1]; decide), hL3.1]
    · rw [hproj.2.1, hL3.2.1, hit0]
    · intro s hs
      rw [hproj.1, hL3.2.2] at hs
      exact hpassc s hs
  · intro ids hist hnd hne
    have hlen : (revChain ids).length = ids.length := by
      have := congrArg List.length (revChain_ids ids)
      rwa [List.length_map] at this
    have hsteps : ({ plan_id := "chain", steps := revChain ids, max_iterations := ids.length } : ExecutionPlan).steps
          = completeFrom ids.length (revChain ids) := by
      dsimp only
      rw [completeFrom_ge (revChain ids) ids.length (by omega)]
    have hpos : 0 < ids.length := List.length_pos.mpr hne
    rcases chain_loop ids.length ids { plan_id := "chain", steps := revChain ids, max_iterations := ids.length, status := .active } hist [] (ids.length - 0) hnd hpos (by omega) (by omega) (by simpa using hsteps)
      with ⟨hst, hit, news, h1, hmap⟩
    have hproj := executePlan_proj [] { plan_id := "chain", steps := revChain ids, max_iterations := ids.length } hist
    have hforce := executePlan_status_force [] { plan_id := "chain", steps := revChain ids, max_iterations := ids.length } hist
    refine ⟨?_, ?_, news, ?_, ?_⟩
    · rw [hforce.2 (by rw [hst]; decide), hst]
    · rw [hproj.2.1, hit]
      simp
    · rw [hproj.2.2.2]
      exact h1
    · rw [hmap]
      apply List.map_congr_left
      intro k hk
      rw [List.mem_range] at hk
      have h9 : ids.length - ids.length + k + 1 = k + 1 := by omega
      rw [h9]

/-- C3 witness: the in-order two-step chain completes in one iteration, and
the reverse-declared two-id chain completes in two. -/
theorem C3_witness :
    (executePlan [] twoChainPlan []).1.status = .completed ∧
    (executePlan [] twoChainPlan []).1.iteration = 1 ∧
    (executePlan [] { plan_id := "chain", steps := revChain ["x", "y"], max_iterations := ["x", "y"].length } []).1.iteration = 2 := by
  have h1 := C3_chain_drain.1 twoChainPlan [] (List.cons_ne_nil _ _) rfl (by decide)
    (by decide) (by decide) ?hact ?hdeps
  case hact =>
    intro s hs act hact
    rcases List.mem_cons.mp hs with h | h
    · rw [h] at hact; simp [twoChainPlan] at hact
    · rw [List.mem_singleton] at h
      rw [h] at hact; simp [twoChainPlan] at hact
  case hdeps =>
    intro j s hjs d hd
    match j, hjs with
    | 0, hjs =>
      have hs : s = { step_id := "A" } := by
        have : some ({ step_id := "A" } : PlanStep) = some s := hjs
        injection this with h
        exact h.symm
      rw [hs] at hd
      simp at hd
    | 1, hjs =>
      have hs : s = { step_id := "B", depends_on := ["A"] } := by
        have : some ({ step_id := "B", depends_on := ["A"] } : PlanStep) = some s := hjs
        injection this with h
        exact h.symm
      rw [hs] at hd
      simp at hd
      subst hd
      decide
    | n + 2, hjs =>
      exact absurd hjs (by simp [twoChainPlan])
  refine ⟨h1.1, h1.2.1, ?_⟩
  exact (C3_chain_drain.2 ["x", "y"] [] (by decide) (by decide)).2.1

/-- C4: the Plan's iteration counter never exceeds `max_iterations` (for any
plan entering with `iteration ≤ max_iterations`, also in every recorded
history entry), `execute_plan` always returns a terminal status (COMPLETED
or FAILED), and when the loop leaves the plan still ACTIVE (budget
exhausted) the status is forced to FAILED. -/
theorem C4_iteration_bound :
    ∀ (handlers : List Handler) (plan : ExecutionPlan) (hist : List HistoryEntry),
      plan.iteration ≤ plan.max_iterations →
      (executePlan handlers plan hist).1.iteration
        ≤ (executePlan handlers plan hist).1.max_iterations ∧
      ((executePlan handlers plan hist).1.status = .completed ∨
        (executePlan handlers plan hist).1.status = .failed) ∧
      (∀ e ∈ (executePlan handlers plan hist).2.1,
        e ∈ hist ∨ e.iteration ≤ plan.max_iterations) ∧
      ((executeLoop handlers (plan.max_iterations - plan.iteration)
          { plan with status := .active } hist []).1.status = .active →
        (executePlan handlers plan hist).1.status = .failed) := by
  intro handlers plan hist hle
  rcases executeLoop_invariants handlers (plan.max_iterations - plan.iteration)
    { plan with status := .active } hist [] with ⟨hmax, _, hge, hitle, hstat⟩
  dsimp only at hmax hge hitle
  have hproj := executePlan_proj handlers plan hist
  have hforce := executePlan_status_force handlers plan hist
  refine ⟨?_, ?_, ?_, hforce.1⟩
  · rw [hproj.2.1, hproj.2.2.1, hmax]
    omega
  · rcases hstat rfl with h | h | h
    · left; rw [hforce.2 (by rw [h]; decide), h]
    · right; rw [hforce.2 (by rw [h]; decide), h]
    · right; exact hforce.1 h
  · intro e he
    rw [hproj.2.2.2] at he
    rcases executeLoop_hist handlers (plan.max_iterations - plan.iteration)
      { plan with status := .active } hist [] with ⟨news, h1, _, hmap, hlen2⟩
    dsimp only at hmap hlen2
    rw [h1] at he
    rcases List.mem_append.mp he with he | he
    · exact Or.inl he
    · right
      have hmem : e.iteration ∈ news.map (fun e => e.iteration) :=
        List.mem_map_of_mem _ he
      rw [hmap] at hmem
      rcases List.mem_range'.mp hmem with ⟨i, hi, hei⟩
      omega

/-- C4 witness: the bound at the concrete always-failing plan. -/
theorem C4_witness :
    (executePlan [] alwaysFailPlan []).1.iteration
      ≤ (executePlan [] alwaysFailPlan []).1.max_iterations ∧
    ((executePlan [] alwaysFailPlan []).1.status = .completed ∨
      (executePlan [] alwaysFailPlan []).1.status = .failed) := by
  have h := C4_iteration_bound [] alwaysFailPlan [] (by decide)
  exact ⟨h.1, h.2.1⟩

/-- C5: (1) during a pass, a Step is transformed by `_execute_step` (its
first act being the transition to IN_PROGRESS) only when it is PENDING and
`_dependencies_satisfied` holds against the plan's step list at that very
moment of the in-order scan (already-visited prefix in its updated state);
(2) dependency satisfaction means every declared identifier resolves in the
step map to an existing step whose status is COMPLETED; (3) a Step carrying
a dependency on an identifier that names no step of the Plan is never
executed by `execute_plan`: its entry is returned unchanged. -/
theorem C5_dependency_gating :
    (∀ (steps : List PlanStep) (j : Nat) (s : PlanStep), steps[j]? = some s →
      ((executeReadySteps steps).1[j]? = some s ∨
        (s.status = .pending ∧
          dependenciesSatisfied
            ((executeReadySteps steps).1.take j ++ steps.drop j) s = true ∧
          (executeReadySteps steps).1[j]? = some (executeStep s)))) ∧
    (∀ (steps : List PlanStep) (s : PlanStep),
      dependenciesSatisfied steps s = true →
      ∀ d ∈ s.depends_on, ∃ t, lookupStep steps d = some t ∧ t.status = .completed) ∧
    (∀ (plan : ExecutionPlan) (hist : List HistoryEntry) (j : Nat) (s : PlanStep)
       (d : String),
      plan.steps[j]? = some s → d ∈ s.depends_on →
      d ∉ plan.steps.map (fun u => u.step_id) →
      (executePlan [] plan hist).1.steps[j]? = some s) := by
  refine ⟨executeReadySteps_spec, dependenciesSatisfied_spec, ?_⟩
  intro plan hist j s d hj hd hmiss
  rw [(executePlan_proj [] plan hist).1]
  exact executeLoop_nil_missing _ _ _ _ j s d (by dsimp only; exact hj) hd
    (by dsimp only; exact hmiss)

/-- C5 witness: the step behind a non-existent dependency id is returned
unchanged by the whole run; the pass characterization at that step; and the
resolved-and-completed shape of a satisfied dependency. -/
theorem C5_witness :
    (executePlan [] obsPlan []).1.steps[1]? = some obsStepB ∧
    ((executeReadySteps obsPlan.steps).1[1]? = some obsStepB ∨
      (obsStepB.status = .pending ∧
        dependenciesSatisfied
          ((executeReadySteps obsPlan.steps).1.take 1 ++ obsPlan.steps.drop 1)
          obsStepB = true ∧
        (executeReadySteps obsPlan.steps).1[1]? = some (executeStep obsStepB))) ∧
    completedA.status = .completed := by
  refine ⟨?_, ?_, ?_⟩
  · exact C5_dependency_gating.2.2 obsPlan [] 1 obsStepB "missing" rfl (by decide)
      (by decide)
  · exact C5_dependency_gating.1 obsPlan.steps 1 obsStepB rfl
  · obtain ⟨t, ht1, ht2⟩ := C5_dependency_gating.2.1 [completedA] zStep rfl "A" (by decide)
    have h0 : lookupStep [completedA] "A" = some completedA := rfl
    rw [h0] at ht1
    injection ht1 with h2
    rw [h2]
    exact ht2

/-- C7 counterexample: an evaluation observer that mutates the plan's steps
and then raises on every invocation changes the terminal status: with the
observer registered the plan ends COMPLETED, with no observers it ends
FAILED.  The claim's clause that the plan reaches the same terminal status
as with no observers therefore fails for observers that throw after a
mutation. -/
theorem C7_counterexample :
    (executePlan [raiseMutHandler] obsPlan []).1.status = .completed ∧
    (executePlan [] obsPlan []).1.status = .failed ∧
    (raiseMutHandler [] obsEval).2 = true := by
  exact ⟨rfl, rfl, rfl⟩

/-- C7 (amended): exceptions from observers never propagate — the run is a
total function of the inputs and every registered observer is still invoked
(the notification window reports `handlers.length` invocations); the
returned status is never REPLANNING (it is set back to ACTIVE inside the
pass and forced terminal at the end); and provided the throwing observers
do not mutate the plan, the run (terminal status, history and all) is
identical to the run with no observers registered. -/
theorem C7_observer_isolation :
    ∀ (handlers : List Handler) (plan : ExecutionPlan) (hist : List HistoryEntry),
      (∀ hd ∈ handlers, ∀ st e, hd st e = (st, true)) →
      executePlan handlers plan hist = executePlan [] plan hist ∧
      (∀ (st : List PlanStep) (e : Evaluation),
        (notifyEvaluationHandlers handlers st e).2 = handlers.length) ∧
      (executePlan handlers plan hist).1.status ≠ .replanning := by
  intro handlers plan hist hp
  have heq : executePlan handlers plan hist = executePlan [] plan hist := by
    unfold executePlan
    dsimp only
    rw [executeLoop_pure_handlers handlers hp]
  refine ⟨heq, fun st e => notify_count handlers st e, ?_⟩
  rcases executeLoop_invariants handlers (plan.max_iterations - plan.iteration)
    { plan with status := .active } hist [] with ⟨_, _, _, _, hstat⟩
  have hforce := executePlan_status_force handlers plan hist
  rcases hstat rfl with h | h | h
  · rw [hforce.2 (by rw [h]; decide), h]; decide
  · rw [hforce.2 (by rw [h]; decide), h]; decide
  · rw [hforce.1 h]; decide

/-- C7 witness: a raise-only observer leaves the run of the re-planning
plan identical to the observer-free run, is invoked once per notification,
and the result never exposes REPLANNING. -/
theorem C7_witness :
    executePlan [pureRaiseHandler] obsPlan [] = executePlan [] obsPlan [] ∧
    (notifyEvaluationHandlers [pureRaiseHandler] obsPlan.steps obsEval).2 = 1 ∧
    (executePlan [pureRaiseHandler] obsPlan []).1.status ≠ .replanning := by
  have h := C7_observer_isolation [pureRaiseHandler] obsPlan []
    (by intro hd hhd st e; rw [List.mem_singleton] at hhd; rw [hhd]; rfl)
  exact ⟨h.1, h.2.1 obsPlan.steps obsEval, h.2.2⟩

/-- C8: each pass appends exactly one history entry, so a run starting from
a history holding no entries for this plan id appends one entry per pass,
with consecutive iteration numbers starting at `iteration + 1`; the number
of appended entries equals the number of passes run (final iteration minus
initial) and never exceeds `max_iterations`; and
`get_execution_history` with this (non-empty-string) plan id returns
exactly those entries, oldest first. -/
theorem C8_history :
    ∀ (plan : ExecutionPlan) (hist : List HistoryEntry),
      plan.plan_id ≠ "" →
      (∀ e ∈ hist, e.plan_id ≠ plan.plan_id) →
      ∃ news : List HistoryEntry,
        (executePlan [] plan hist).2.1 = hist ++ news ∧
        (∀ e ∈ news, e.plan_id = plan.plan_id) ∧
        news.length + plan.iteration = (executePlan [] plan hist).1.iteration ∧
        news.length ≤ plan.max_iterations ∧
        news.map (fun e => e.iteration) = List.range' (plan.iteration + 1) news.length ∧
        get_execution_history (executePlan [] plan hist).2.1 (some plan.plan_id)
          = news := by
  intro plan hist hpid hold
  rcases executeLoop_hist [] (plan.max_iterations - plan.iteration)
    { plan with status := .active } hist [] with ⟨news, h1, h2, h3, h4⟩
  dsimp only at h2 h3 h4
  have hproj := executePlan_proj [] plan hist
  refine ⟨news, ?_, h2, ?_, ?_, h3, ?_⟩
  · rw [hproj.2.2.2]
    exact h1
  · rw [hproj.2.1]
    exact h4
  · rcases executeLoop_invariants [] (plan.max_iterations - plan.iteration)
      { plan with status := .active } hist [] with ⟨_, _, _, hb, _⟩
    dsimp only at hb
    omega
  · rw [hproj.2.2.2, h1]
    unfold get_execution_history
    dsimp only
    rw [if_neg (by simpa using hpid)]
    rw [List.filter_append]
    rw [List.filter_eq_nil_iff.mpr (fun e he => by simpa using hold e he)]
    rw [List.filter_eq_self.mpr (fun e he => by simpa using h2 e he)]
    simp

/-- C8 witness: the always-failing plan runs two passes and its filtered
history is exactly the whole history of the run. -/
theorem C8_witness :
    get_execution_history (executePlan [] alwaysFailPlan []).2.1 (some "p1")
      = (executePlan [] alwaysFailPlan []).2.1 ∧
    (executePlan [] alwaysFailPlan []).2.1.length + 0
      = (executePlan [] alwaysFailPlan []).1.iteration := by
  obtain ⟨news, h1, h2, h3, h4, h5, h6⟩ :=
    C8_history alwaysFailPlan [] (by decide) (by intro e he; cases he)
  have hnews : news = (executePlan [] alwaysFailPlan []).2.1 := by
    rw [h1]
    simp
  constructor
  · conv_rhs => rw [← hnews]
    exact h6
  · rw [hnews] at h3
    exact h3

/-- C9: the `failed` count covers only retry-exhausted steps: (1) a step
whose action raises while a retry remains is reverted to PENDING with its
count incremented; (2) `_execute_step` produces FAILED only with
`retry_count > max_retries`; (3) `has_failures` holds iff some step has
status FAILED — a recoverable (re-PENDING) failure never sets it; (4) the
evaluation observers are only ever invoked on snapshots with
`needs_replanning`, hence with `has_failures` and a positive `failed`
count — never for a failure that will still be retried. -/
theorem C9_failed_only_exhausted :
    (∀ (s : PlanStep) (act : Nat → Bool), s.action = some act →
      act s.retry_count = false → s.retry_count + 1 ≤ s.max_retries →
      (executeStep s).status = .pending ∧
      (executeStep s).retry_count = s.retry_count + 1) ∧
    (∀ s : PlanStep, (executeStep s).status = .failed →
      s.max_retries < (executeStep s).retry_count) ∧
    (∀ steps : List PlanStep,
      (evaluatePlan steps).has_failures = true ↔ ∃ s ∈ steps, s.status = .failed) ∧
    (∀ (handlers : List Handler) (plan : ExecutionPlan) (hist : List HistoryEntry),
      ∀ ev ∈ (executePlan handlers plan hist).2.2,
        ev.needs_replanning = true ∧ ev.has_failures = true ∧ 0 < ev.failed) := by
  refine ⟨?_, ?_, evaluatePlan_has_failures_iff, ?_⟩
  · intro s act hact hfail hle
    unfold executeStep
    dsimp only
    rw [hact]
    dsimp only
    rw [if_neg (by rw [hfail]; simp), if_pos (by exact hle)]
    exact ⟨rfl, rfl⟩
  · intro s h
    rcases executeStep_cases s with hc | ⟨hc, hb⟩ | ⟨hc, hb⟩
    · rw [hc] at h; simp at h
    · rw [hc] at h; simp at h
    · rw [hc]
      simpa using hb
  · intro handlers plan hist ev hev
    rw [(executePlan_proj handlers plan hist).2.2.2] at hev
    rcases executeLoop_evlog handlers (plan.max_iterations - plan.iteration)
      { plan with status := .active } hist [] ev hev with h | h
    · cases h
    · exact h

/-- C9 witness: the always-failing step with a retry left reverts to
PENDING with count 1; a FAILED-status step makes `has_failures` true; and
the observer log of the re-planning run contains only `needs_replanning`
snapshots, witnessed at the concrete snapshot of `obsPlan`. -/
theorem C9_witness :
    (executeStep alwaysFailStep).status = .pending ∧
    (executeStep alwaysFailStep).retry_count = 1 ∧
    (evaluatePlan [alwaysFailStepFinal]).has_failures = true ∧
    (obsEval.needs_replanning = true ∧ obsEval.has_failures = true ∧ 0 < obsEval.failed) := by
  have h1 := C9_failed_only_exhausted.1 alwaysFailStep (fun _ => false) rfl rfl (by decide)
  refine ⟨h1.1, h1.2, ?_, ?_⟩
  · exact (C9_failed_only_exhausted.2.2.1 [alwaysFailStepFinal]).mpr
      ⟨alwaysFailStepFinal, List.mem_singleton.mpr rfl, rfl⟩
  · exact C9_failed_only_exhausted.2.2.2 [] obsPlan [] obsEval (by decide)

end ForwardThinking
